import Mathlib

/-!
Verification of the pydra workflow-engine specification: workflow
construction, the type-compatibility oracle, split/combine state shapes,
cache-key derivation, warm-cache re-execution and the cache's at-most-once
claim discipline.  The engine itself is not among the repository's staged
files (the staged notebooks only call it), so each engine definition below
is modelled from the specification's words; the concrete workflows
(BasicWorkflow, SplitWorkflow, SplitThenCombineWorkflow, TypeErrorWorkflow,
RecursiveNestedWorkflow, DirectAccesWorkflow, SetOutputsOfWorkflow) are
transcribed from the notebook that defines them.
-/

namespace Pydra

/-- Modelled from the spec: the result lattice of the Type Lattice Oracle
`assignable(src, dst) → {ok, ok-with-coercion, reject}` (spec section 4.1);
the oracle's code is not in the staged files. -/
inductive Assign where
| ok
| okCoercion
| reject
deriving DecidableEq, Repr

/-- Modelled from the spec: the types the staged workflows mention — `Any`
as top, primitives, and the file-format tags File, Png, Jpeg, Mp4,
Quicktime resolved through the external format-hierarchy delegate. -/
inductive Ty where
| anyTy
| intTy
| floatTy
| strTy
| file
| png
| jpeg
| mp4
| quicktime
deriving DecidableEq, Repr

/-- Modelled from the spec: the type-registry delegate `ancestors(type_tag)`
(spec section 6); every concrete format's ancestor chain is `[File]`. -/
def Ty.ancestors : Ty → List Ty
| .png => [.file]
| .jpeg => [.file]
| .mp4 => [.file]
| .quicktime => [.file]
| _ => []

/-- Modelled from the spec: `assignable(src, dst)` (spec section 4.1): `Any`
is top in both directions; primitives match by identity with int→float
widening as ok-with-coercion; a file-format source passes when it is a
subtype of the destination, and — the "assume the best" rule of the typing
notebook — also when it is a superclass of the destination (re-checked at
dispatch); everything else is rejected. -/
def assignable (src dst : Ty) : Assign :=
  if src = .anyTy ∨ dst = .anyTy then .ok
  else if src = dst then .ok
  else if src = .intTy ∧ dst = .floatTy then .okCoercion
  else if dst ∈ src.ancestors then .ok
  else if src ∈ dst.ancestors then .ok
  else .reject

/-- Concrete values carried by input bindings of the staged workflows. -/
inductive BVal where
| num (q : ℚ)
| strv (s : String)
deriving DecidableEq, Repr

/-- Modelled from the spec: an input binding is either a concrete value or a
lazy field `(node_name, field_name)`; it carries the declared type of its
source for type-checking (spec section 3, "Lazy field"). -/
inductive BSource where
| value (v : BVal)
| lazy (node field : String)
deriving DecidableEq, Repr

structure Binding where
  src : BSource
  srcTy : Ty
deriving DecidableEq, Repr

/-- Modelled from the spec: an immutable task definition: stable id, input
fields (name → declared type) and output fields (spec section 3). -/
structure TaskDef where
  id : String
  inFields : List (String × Ty)
  outFields : List (String × Ty)
deriving DecidableEq, Repr

/-- Modelled from the spec: a graph node `{name, task_def, inputs}` (spec
section 3). -/
structure WNode where
  name : String
  task : TaskDef
  inputs : List (String × Binding)
deriving DecidableEq, Repr

/-- Modelled from the spec: the in-progress workflow / GraphSpec: nodes in
insertion order and declared workflow outputs, each a lazy reference
`(node_name, field_name)` (spec section 3, "GraphSpec"). -/
structure Workflow where
  nodes : List WNode
  outputs : List (String × (String × String))
deriving DecidableEq, Repr

def emptyWorkflow : Workflow := { nodes := [], outputs := [] }

def lookupAssoc {α : Type} (l : List (String × α)) (k : String) : Option α :=
  (l.find? (fun p => p.1 = k)).map (fun p => p.2)

def namesOf (ns : List WNode) : List String := ns.map (fun n => n.name)

/-- Modelled from the spec: builder step 1 — the node name is the
user-supplied name, else the task's default id, else the id with a numeric
suffix ensuring uniqueness (spec section 4.2). -/
def freshName (used : List String) (base : String) : String :=
  if base ∈ used then
    ((List.range (used.length + 1)).find?
      (fun k => (base ++ toString k) ∉ used)).elim base (fun k => base ++ toString k)
  else base

/-- Modelled from the spec: builder errors; *type-mismatch* identifies the
destination node/field and the offending types (spec sections 4.1 and 7). -/
inductive BuildError where
| typeMismatch (node field : String) (src dst : Ty)
deriving DecidableEq, Repr

/-- The declared type of a task input field; fields left unannotated default
to `Any` (typing notebook). -/
def dstTy (task : TaskDef) (f : String) : Ty := (lookupAssoc task.inFields f).getD .anyTy

/-- Modelled from the spec: builder step 2 — resolve each input and verify
type assignability; the first wired input whose source type is rejected for
its destination type, if any. -/
def findMismatch (task : TaskDef) (binds : List (String × Binding)) :
    Option (String × Ty × Ty) :=
  binds.findSome? (fun p =>
    if assignable p.2.srcTy (dstTy task p.1) = .reject
    then some (p.1, p.2.srcTy, dstTy task p.1) else none)

/-- Modelled from the spec: `builder.add` (spec section 4.2): assign a
unique name, type-check every wired input, and only then append the node;
on a type mismatch the error is raised before the node is appended, so the
workflow under construction is returned unchanged.  The result pairs the
(possibly updated) workflow with either the new node's name or the build
error. -/
def workflowAdd (wf : Workflow) (task : TaskDef) (binds : List (String × Binding))
    (nameArg : Option String) : Workflow × Except BuildError String :=
  let nm := freshName (namesOf wf.nodes) (nameArg.getD task.id)
  match findMismatch task binds with
  | some (f, s, d) => (wf, .error (.typeMismatch nm f s d))
  | none => ({ wf with nodes := wf.nodes ++ [⟨nm, task, binds⟩] }, .ok nm)

/-- Whether `builder.add` succeeds on this invocation. -/
def addSucceeds (wf : Workflow) (task : TaskDef) (binds : List (String × Binding))
    (nameArg : Option String) : Bool :=
  match (workflowAdd wf task binds nameArg).2 with
  | .ok _ => true
  | .error _ => false

/-! ### Cache-key derivation (spec section 4.4) -/

/-- Modelled from the spec: the resolved values the cache canonicalizes:
numbers, strings, file values (a path together with the file's content)
and sequences (spec section 4.4); the cache's code is not in the staged
files. -/
inductive CVal where
| num (q : ℚ)
| strv (s : String)
| filev (path : String) (content : List Nat)
| listv (xs : List CVal)

def strBytes (s : String) : List Nat := s.toList.map (fun c => c.toNat)

/-- Lexicographic order on byte sequences, for sorting mapping keys. -/
def bytesLe : List Nat → List Nat → Bool
| [], _ => true
| _ :: _, [] => false
| x :: xs, y :: ys => if x < y then true else if y < x then false else bytesLe xs ys

def keyLe (a b : String) : Bool := bytesLe (strBytes a) (strBytes b)

/-- Keys-sorted insertion for the canonicalization of mappings. -/
def insertByKey (p : String × CVal) : List (String × CVal) → List (String × CVal)
| [] => [p]
| q :: rest => if keyLe p.1 q.1 then p :: q :: rest else q :: insertByKey p rest

def sortByKey (l : List (String × CVal)) : List (String × CVal) :=
  l.foldr insertByKey []

mutual
/-- Modelled from the spec: `canonical` (spec section 4.4): sequences are
normalized element-wise and file-typed values are reduced to their content
(the path is discarded: the cache hashes file content, not path). -/
def canonical : CVal → CVal
| .num q => .num q
| .strv s => .strv s
| .filev _ content => .filev "" content
| .listv xs => .listv (canonicalList xs)

def canonicalList : List CVal → List CVal
| [] => []
| v :: rest => canonical v :: canonicalList rest
end

/-- Modelled from the spec: canonicalization of a resolved input mapping:
mappings are sorted by key and values normalized (spec section 4.4). -/
def canonicalInputs (i : List (String × CVal)) : List (String × CVal) :=
  sortByKey (i.map (fun p => (p.1, canonical p.2)))

mutual
/-- A flat byte-level encoding of a canonical value, fed to the digest. -/
def encodeCVal : CVal → List Nat
| .num q => 1 :: (q.num.natAbs :: (if q.num < 0 then 1 else 0) :: [q.den])
| .strv s => 2 :: strBytes s ++ [0]
| .filev p content => 3 :: strBytes p ++ [0] ++ content ++ [0]
| .listv xs => 4 :: encodeCValList xs ++ [0]

def encodeCValList : List CVal → List Nat
| [] => []
| v :: rest => encodeCVal v ++ encodeCValList rest
end

def encodeMap (l : List (String × CVal)) : List Nat :=
  l.flatMap (fun p => strBytes p.1 ++ [0] ++ encodeCVal p.2)

/-- Modelled from the spec: the content digest `H` over a byte stream,
folded in 64-bit arithmetic (spec section 4.4 leaves the hash abstract). -/
def digestH (bs : List Nat) : Nat :=
  bs.foldl (fun h b => (h * 31 + b) % (2 ^ 64)) 17

/-- Modelled from the spec: cache-key derivation
`key = H(task_id ‖ canonical(inputs) ‖ env_id)` (spec section 4.4). -/
def keyOf (taskId : String) (inputs : List (String × CVal)) (envId : String) : Nat :=
  digestH (strBytes taskId ++ [0] ++ encodeMap (canonicalInputs inputs) ++ [0] ++ strBytes envId)

/-! ### Execution with a shared content-addressed cache (spec sections 4.4
and 4.5).  Nodes are processed in insertion order (which the builder makes
topological); each node's resolved inputs derive its cache key; a hit takes
the cached outputs, a miss invokes the worker and writes the outputs back. -/

/-- The in-process semantics of the notebook's Python tasks, dispatched by
task id: `Add(a, b) = a + b`, `Mul(a, b) = a * b`,
`Divide(x, y) = x / y` (output field `divided`),
`Subtract(x, y) = x - y`. -/
def execTask (taskId : String) (ins : List (String × ℚ)) : List (String × ℚ) :=
  let get := fun f => (lookupAssoc ins f).getD 0
  if taskId = "Add" then [("out", get "a" + get "b")]
  else if taskId = "Mul" then [("out", get "a" * get "b")]
  else if taskId = "Subtract" then [("out", get "x" - get "y")]
  else if taskId = "Divide" then [("divided", get "x" / get "y")]
  else []

/-- The value store: one entry per (node name, output field). -/
abbrev Env : Type := List ((String × String) × ℚ)

def lookupEnv (env : Env) (nd f : String) : Option ℚ :=
  (env.find? (fun p => p.1 = (nd, f))).map (fun p => p.2)

/-- Per-node input resolution: a concrete numeric value is carried
unchanged, a lazy field is read from the value store. -/
def resolveInputs (env : Env) (n : WNode) : List (String × ℚ) :=
  n.inputs.map (fun p =>
    (p.1, match p.2.src with
          | .value (.num q) => q
          | .value (.strv _) => 0
          | .lazy nd f => (lookupEnv env nd f).getD 0))

/-- The cache key of one work unit (spec section 4.4), derived from the
task id, the canonicalized resolved inputs and the environment id. -/
def nodeKey (n : WNode) (resolved : List (String × ℚ)) : Nat :=
  keyOf n.task.id (resolved.map (fun p => (p.1, CVal.num p.2))) "local"

/-- The shared cache: key → outputs. -/
abbrev Cache : Type := List (Nat × List (String × ℚ))

def lookupCache (c : Cache) (k : Nat) : Option (List (String × ℚ)) :=
  (c.find? (fun p => p.1 = k)).map (fun p => p.2)

structure RunResult where
  env : Env
  cache : Cache
  hits : Nat
  invocations : Nat
deriving Repr

/-- Modelled from the spec: the scheduler's pass over the graph (spec
section 4.5): nodes in insertion (topological) order; for each node resolve
the inputs, compute the cache key, and either take the cached outputs (a
hit) or invoke the worker and write the outputs back to the cache (a
miss); outputs are recorded in the value store under the node's name. -/
def runNodes : List WNode → Env → Cache → RunResult
| [], env, c => { env := env, cache := c, hits := 0, invocations := 0 }
| n :: rest, env, c =>
    let r := resolveInputs env n
    let k := nodeKey n r
    match lookupCache c k with
    | some outs =>
        let res := runNodes rest (env ++ outs.map (fun p => ((n.name, p.1), p.2))) c
        { res with hits := res.hits + 1 }
    | none =>
        let outs := execTask n.task.id r
        let res := runNodes rest (env ++ outs.map (fun p => ((n.name, p.1), p.2)))
                     (c ++ [(k, outs)])
        { res with invocations := res.invocations + 1 }

/-- The value-store semantics of a graph without caching: nodes in
insertion (topological) order, each node's outputs written to the value
store under its name (spec section 2, data flow). -/
def evalNodes : List WNode → Env → Env
| [], env => env
| n :: rest, env =>
    evalNodes rest (env ++ (execTask n.task.id (resolveInputs env n)).map
      (fun p => ((n.name, p.1), p.2)))

/-- The workflow's declared outputs, read from the value store after a run
of its nodes. -/
def evalWorkflowOutputs (wf : Workflow) : List (String × ℚ) :=
  wf.outputs.map (fun p => (p.1, (lookupEnv (evalNodes wf.nodes []) p.2.1 p.2.2).getD 0))

/-! ### Direct access to the workflow under construction (notebook
"Accessing the workflow object"): `wf[name].inputs.field` assignment and
`wf.outputs.X = lazy`. -/

/-- Replace the value at the first occurrence of key `f` (the field exists
on the node, as a Python attribute would). -/
def setAssoc {α : Type} : List (String × α) → String → α → List (String × α)
| [], _, _ => []
| (k, v) :: rest, f, b => if k = f then (f, b) :: rest else (k, v) :: setAssoc rest f b

/-- `wf[nm].inputs.f = b`: re-assign one input field of one node through
the workflow handle. -/
def setNodeInput (wf : Workflow) (nm f : String) (b : Binding) : Workflow :=
  { wf with nodes := wf.nodes.map (fun n =>
      if n.name = nm then { n with inputs := setAssoc n.inputs f b } else n) }

def getNodeInput (wf : Workflow) (nm f : String) : Option Binding :=
  (wf.nodes.find? (fun n => n.name = nm)).bind (fun n => lookupAssoc n.inputs f)

/-- `wf[nm].inputs.f *= k`: read the current concrete value of the field
and write back its multiple. -/
def mulNodeInputBy (wf : Workflow) (nm f : String) (k : ℚ) : Workflow :=
  match getNodeInput wf nm f with
  | some ⟨.value (.num q), ty⟩ => setNodeInput wf nm f ⟨.value (.num (q * k)), ty⟩
  | _ => wf

/-- `wf.outputs.X = lazy`: record one declared workflow output. -/
def assignOutput (wf : Workflow) (outName : String) (src : String × String) : Workflow :=
  { wf with outputs := wf.outputs ++ [(outName, src)] }

/-- Returning lazy fields as a tuple from the constructor: the declared
output names are zipped with the returned lazy fields. -/
def withTupleOutputs (wf : Workflow) (outNames : List String)
    (srcs : List (String × String)) : Workflow :=
  { wf with outputs := outNames.zip srcs }

/-! ### The notebook's task definitions.  Python tasks leave their fields
unannotated, so they default to `Any` (typing notebook). -/

def addTask : TaskDef :=
  { id := "Add", inFields := [("a", .anyTy), ("b", .anyTy)], outFields := [("out", .anyTy)] }

def mulTask : TaskDef :=
  { id := "Mul", inFields := [("a", .anyTy), ("b", .anyTy)], outFields := [("out", .anyTy)] }

def subtractTask : TaskDef :=
  { id := "Subtract", inFields := [("x", .anyTy), ("y", .anyTy)], outFields := [("out", .anyTy)] }

def divideTask : TaskDef :=
  { id := "Divide", inFields := [("x", .anyTy), ("y", .anyTy)],
    outFields := [("divided", .anyTy)] }

/-- `shell.define("ffmpeg -i <in_video> -i <watermark:image/png> -filter_complex
<filter> <out|out_video:video/mp4>")`: `in_video` is untyped (`Any`),
`watermark` is `Png`, the output video is `Mp4`. -/
def ffmpegTask : TaskDef :=
  { id := "ffmpeg",
    inFields := [("in_video", .anyTy), ("watermark", .png), ("filter", .strTy)],
    outFields := [("out_video", .mp4)] }

/-- `QuicktimeHandbrake`: `HandBrakeCLI -i <in_video:video/quicktime> -o
<out|out_video:video/quicktime> ...`. -/
def quicktimeHandbrake : TaskDef :=
  { id := "HandBrakeCLI",
    inFields := [("in_video", .quicktime), ("width", .intTy), ("height", .intTy)],
    outFields := [("out_video", .quicktime)] }

/-- `Mp4Handbrake`: `HandBrakeCLI -i <in_video:video/mp4> -o
<out|out_video:video/mp4> ...`. -/
def mp4Handbrake : TaskDef :=
  { id := "HandBrakeCLI",
    inFields := [("in_video", .mp4), ("width", .intTy), ("height", .intTy)],
    outFields := [("out_video", .mp4)] }

def numBind (q : ℚ) : Binding := ⟨.value (.num q), .anyTy⟩

def strBind (s : String) : Binding := ⟨.value (.strv s), .strTy⟩

def intBind (q : ℚ) : Binding := ⟨.value (.num q), .intTy⟩

/-- A lazy field wired from `node.field`, tagged with the declared output
type it carries. -/
def lazyBind (node field : String) (ty : Ty) : Binding := ⟨.lazy node field, ty⟩

/-! ### TypeErrorWorkflow (notebook "Type-checking between nodes"):
the ffmpeg node is added first; wiring its `Mp4` output into the
Quicktime-typed HandBrake input raises a `TypeError`, which the constructor
catches, resuming with the Mp4-typed HandBrake task. -/

/-- The successful first step: the ffmpeg node, with the workflow's `Mp4`
input into the untyped `in_video` and its `File` input into the `Png`-typed
`watermark`. -/
def typeErrorStep1 : Workflow × Except BuildError String :=
  workflowAdd emptyWorkflow ffmpegTask
    [("in_video", lazyBind "workflow" "input_video" .mp4),
     ("watermark", lazyBind "workflow" "watermark" .file),
     ("filter", strBind "overlay=10:10")]
    (some "add_watermark")

/-- The attempt the notebook expects to fail: wiring the ffmpeg node's
`Mp4`-typed `out_video` into the Quicktime-typed HandBrake input. -/
def typeErrorStep2 (wf1 : Workflow) : Workflow × Except BuildError String :=
  workflowAdd wf1 quicktimeHandbrake
    [("in_video", lazyBind "add_watermark" "out_video" .mp4),
     ("width", intBind 1280), ("height", intBind 720)]
    none

/-- The corrected node added inside the `except TypeError` handler. -/
def typeErrorStep3 (wf1 : Workflow) : Workflow × Except BuildError String :=
  workflowAdd wf1 mp4Handbrake
    [("in_video", lazyBind "add_watermark" "out_video" .mp4),
     ("width", intBind 1280), ("height", intBind 720)]
    none

/-- The whole constructor body, with the notebook's try/except threading:
if the Quicktime add raises, construction resumes from the unchanged
workflow with the corrected Mp4 node. -/
def typeErrorWorkflowConstruct : Workflow :=
  let s1 := typeErrorStep1
  let wf1 := s1.1
  match typeErrorStep2 wf1 with
  | (wf2, .ok nm) => assignOutput wf2 "out_video" (nm, "out_video")
  | (wf2, .error _) =>
      match typeErrorStep3 wf2 with
      | (wf3, .ok nm) => assignOutput wf3 "out_video" (nm, "out_video")
      | (wf3, .error _) => wf3

/-! ### BasicWorkflow (notebook "Constructor functions"):
`add = workflow.add(Add(a=a, b=b)); mul = workflow.add(Mul(a=add.out, b=b));
return mul.out`. -/

def basicWorkflowModel (a b : ℚ) : Workflow :=
  let s1 := workflowAdd emptyWorkflow addTask [("a", numBind a), ("b", numBind b)] none
  let s2 := workflowAdd s1.1 mulTask
    [("a", lazyBind "Add" "out" .anyTy), ("b", numBind b)] none
  withTupleOutputs s2.1 ["out"] [("Mul", "out")]

/-! ### DirectAccesWorkflow and SetOutputsOfWorkflow (notebook "Accessing
the workflow object"): identical constructions — `addition`, `Mul`,
`division` nodes, then `wf["Mul"].inputs.b *= 2` — differing only in how
the two outputs are set: returned as a tuple versus assigned one by one on
`wf.outputs`. -/

def directAccesBody (a b : ℚ) : Workflow :=
  let s1 := workflowAdd emptyWorkflow addTask
    [("a", numBind a), ("b", numBind b)] (some "addition")
  let s2 := workflowAdd s1.1 mulTask
    [("a", lazyBind "addition" "out" .anyTy), ("b", numBind b)] none
  let s3 := workflowAdd s2.1 divideTask
    [("x", lazyBind "addition" "out" .anyTy), ("y", lazyBind "Mul" "out" .anyTy)]
    (some "division")
  mulNodeInputBy s3.1 "Mul" "b" 2

/-- `DirectAccesWorkflow`: outputs set by returning `(mul.out,
divide.divided)` as a tuple against the declared names `out1, out2`. -/
def directAccesWorkflow (a b : ℚ) : Workflow :=
  withTupleOutputs (directAccesBody a b) ["out1", "out2"]
    [("Mul", "out"), ("division", "divided")]

/-- `SetOutputsOfWorkflow`: the same body, outputs assigned directly with
`wf.outputs.out1 = mul.out; wf.outputs.out2 = divide.divided`. -/
def setOutputsOfWorkflow (a b : ℚ) : Workflow :=
  assignOutput (assignOutput (directAccesBody a b) "out1" ("Mul", "out"))
    "out2" ("division", "divided")

/-! ### Split/combine state shapes (spec section 4.3).  A node's state
shape is an ordered list of (axis id → cardinality); the axis id of a
split field is `"{node_name}.{field_name}"`.  The Splitter/Combiner engine
is not in the staged files and is modelled from the spec. -/

abbrev Shape : Type := List (String × Nat)

/-- A node as the shape engine sees it: its split fields (field →
cardinality of the split sequence), its combine keys, and the producers its
lazy inputs reference. -/
structure SNode where
  name : String
  splitFields : List (String × Nat)
  combines : List String
  deps : List String
deriving DecidableEq, Repr

/-- The axes a node's own `.split(...)` introduces, in insertion order. -/
def localAxes (n : SNode) : Shape :=
  n.splitFields.map (fun p => (n.name ++ "." ++ p.1, p.2))

def shapeKeys (s : Shape) : List String := s.map (fun p => p.1)

/-- Union of two shapes, keeping the left operand's insertion order and
cardinalities; a shared axis keeps the cardinality already recorded (the
spec requires the two to agree). -/
def unionShape (s t : Shape) : Shape :=
  s ++ t.filter (fun p => ¬ p.1 ∈ shapeKeys s)

/-- Modelled from the spec: the propagation rule (spec section 4.3):
`shape(node) = union_of(shape(p) for p in producers) ∪ local_split_axes −
local_combine_axes`. -/
def shapeFormula (prodShapes : List Shape) (n : SNode) : Shape :=
  ((prodShapes.foldl unionShape []).append
    ((localAxes n).filter (fun p => ¬ p.1 ∈ shapeKeys (prodShapes.foldl unionShape [])))).filter
      (fun p => ¬ p.1 ∈ n.combines)

/-- Shape resolution over the graph in insertion (topological) order: each
node's shape is the propagation rule applied to the already-resolved shapes
of its producers. -/
def computeShapesAux (acc : List (String × Shape)) : List SNode → List (String × Shape)
| [] => acc
| n :: rest =>
    computeShapesAux
      (acc ++ [(n.name, shapeFormula (n.deps.map (fun d => (lookupAssoc acc d).getD [])) n)])
      rest

def computeShapes (nodes : List SNode) : List (String × Shape) :=
  computeShapesAux [] nodes

def shapeOf (nodes : List SNode) (nm : String) : Shape :=
  (lookupAssoc (computeShapes nodes) nm).getD []

/-- A valid graph seen from the shape engine: node names are unique and
every dependency references a node added earlier (the builder enforces
insertion order = topological order, spec section 3 invariants). -/
def wellFormedFrom (seen : List String) : List SNode → Prop
| [] => True
| n :: rest =>
    n.name ∉ seen ∧ (∀ d ∈ n.deps, d ∈ seen) ∧ wellFormedFrom (seen ++ [n.name]) rest

def wellFormed (nodes : List SNode) : Prop := wellFormedFrom [] nodes

/-- The SplitThenCombineWorkflow's graph as the shape engine sees it, for
input sequences of lengths `la` and `lb`: `Mul` splits over `a` and `b`,
`Add` depends on `Mul` and combines the upstream axis `"Mul.a"`, `Sum`
depends on `Add`. -/
def splitThenCombineNodes (la lb : Nat) : List SNode :=
  [{ name := "Mul", splitFields := [("a", la), ("b", lb)], combines := [], deps := [] },
   { name := "Add", splitFields := [], combines := ["Mul.a"], deps := ["Mul"] },
   { name := "Sum", splitFields := [], combines := [], deps := ["Add"] }]

/-! ### State-array enumeration and combine gather order (spec section
4.3), executable on concrete inputs for the SplitWorkflow scenario. -/

/-- All coordinate tuples of a state shape with the given cardinalities, in
lexicographic order (first axis most significant). -/
def cartCoords : List Nat → List (List Nat)
| [] => [[]]
| d :: ds => (List.range d).flatMap (fun i => (cartCoords ds).map (fun c => i :: c))

def insertCoord (c : List Nat) (pos i : Nat) : List Nat :=
  c.take pos ++ i :: c.drop pos

/-- Modelled from the spec: `combine(axis)` (spec section 4.3): the axis at
position `pos` is removed from the downstream shape; for each remaining
coordinate (in lexicographic order) the outputs along the combined axis are
gathered into a sequence in lexicographic coordinate order. -/
def combineGather (dims : List Nat) (pos : Nat) (f : List Nat → ℤ) :
    List (List Nat × List ℤ) :=
  (cartCoords (dims.eraseIdx pos)).map (fun c =>
    (c, (List.range (dims.getD pos 0)).map (fun i => f (insertCoord c pos i))))

/-- The per-state outputs of the SplitWorkflow's `Mul` node split over
`a = as` and `b = bs`: the state at coordinates `[i, j]` multiplies
`as[i] * bs[j]`. -/
def splitWorkflowMulState (as bs : List ℤ) : List Nat → ℤ :=
  fun c => (as.getD (c.getD 0 0) 0) * (bs.getD (c.getD 1 0) 0)

/-- The sequences handed to the downstream `Sum` node after
`combine("a")`: one gathered list per coordinate of the open `Mul.b`
axis. -/
def splitWorkflowGathered (as bs : List ℤ) : List (List ℤ) :=
  (combineGather [as.length, bs.length] 0 (splitWorkflowMulState as bs)).map
    (fun g => g.2)

/-- The SplitWorkflow scenario end to end: `Mul().split(a=as, b=bs)
.combine("a")` then `Sum(x=mul.out)`; the workflow output is `sum.out`
gathered along the still-open `Mul.b` axis. -/
def splitWorkflowRun (as bs : List ℤ) : List ℤ :=
  (splitWorkflowGathered as bs).map (fun xs => xs.sum)

/-! ### RecursiveNestedWorkflow (notebook "Nested and conditional
workflows").  A sub-workflow node is expanded by the scheduler at execution
time with concrete input values (spec section 4.5), so the recursion below
consumes the concrete `depth`: `add = Add(a=a, b=1)`,
`decrement_depth = Subtract(x=depth, y=1)`, and while `depth > 0` the
constructor nests `RecursiveNestedWorkflow(a=add.out,
depth=decrement_depth.out)`; the base case returns `add.out`. -/

def recursiveNested (a : ℚ) (depth : ℤ) : ℚ :=
  if 0 < depth then recursiveNested (a + 1) (depth - 1) else a + 1
termination_by depth.toNat
decreasing_by omega

/-! ### The cache's concurrency discipline (spec section 4.4), as an
interleaving transition system.  N workers share the cache; the atomic
events are: `claim w k` (the single-writer lock: granted only when the key
is unclaimed), `publish w k` (the claim holder executes and publishes the
outputs), and `observe w k outs` (any other claimant reads the published
outputs).  A trace is valid when every event's precondition held when it
fired. -/

/-- Modelled from the spec: the per-key cache states — miss (unclaimed),
in-flight (claimed by worker `w`), and hit (outputs published). -/
inductive KeyState where
| unclaimed
| claimed (w : Nat)
| published (outs : ℤ)
deriving DecidableEq, Repr

inductive CacheEvent where
| claim (w k : Nat)
| publish (w k : Nat)
| observe (w k : Nat) (outs : ℤ)
deriving DecidableEq, Repr

abbrev CacheSt : Type := List (Nat × KeyState)

def lookupKey (s : CacheSt) (k : Nat) : KeyState :=
  ((s.find? (fun p => p.1 = k)).map (fun p => p.2)).getD .unclaimed

def setKey : CacheSt → Nat → KeyState → CacheSt
| [], k, st => [(k, st)]
| p :: rest, k, st => if p.1 = k then (k, st) :: rest else p :: setKey rest k st

/-- Modelled from the spec: one atomic cache event (spec section 4.4):
`claim` succeeds only on an unclaimed key (exclusive single-writer lock),
`publish` only for the worker holding the claim (writing the deterministic
execution result `execOut k`), `observe` only reads outputs already
published.  `none` means the event cannot fire in this state. -/
def cacheStep (execOut : Nat → ℤ) (s : CacheSt) : CacheEvent → Option CacheSt
| .claim w k =>
    match lookupKey s k with
    | .unclaimed => some (setKey s k (.claimed w))
    | _ => none
| .publish w k =>
    match lookupKey s k with
    | .claimed w' => if w' = w then some (setKey s k (.published (execOut k))) else none
    | _ => none
| .observe _ k outs =>
    match lookupKey s k with
    | .published o => if o = outs then some s else none
    | _ => none

/-- Run a trace of interleaved events from a cache state; `none` when some
event fired without its precondition. -/
def runCacheTrace (execOut : Nat → ℤ) : CacheSt → List CacheEvent → Option CacheSt
| s, [] => some s
| s, e :: rest =>
    match cacheStep execOut s e with
    | some s' => runCacheTrace execOut s' rest
    | none => none

/-- How many times key `k` is executed (published) in a trace. -/
def countExec (tr : List CacheEvent) (k : Nat) : Nat :=
  tr.countP (fun e => match e with | .publish _ k' => k' = k | _ => false)

/-! ## Theorems -/

/-- C1: the SplitWorkflow — `Mul().split(a=a, b=b).combine("a")` feeding
`Sum(x=mul.out)` — run with `a = [1,2,3]` and `b = [10,20]` yields
`[60, 120]` (for each element of `b`, the sum over all elements of `a` of
`a*b`), ordered along the `b` axis; the sequences gathered by
`combine("a")` are `[[10,20,30],[20,40,60]]`, each in lexicographic
coordinate order along the combined axis, and the state-array enumeration
of the `[3,2]` shape is itself lexicographic. -/
theorem C1_split_combine_scenario :
    splitWorkflowRun [1, 2, 3] [10, 20] = [60, 120] ∧
    splitWorkflowGathered [1, 2, 3] [10, 20] = [[10, 20, 30], [20, 40, 60]] ∧
    cartCoords [3, 2] = [[0, 0], [0, 1], [1, 0], [1, 1], [2, 0], [2, 1]] := by
  refine ⟨by decide, by decide, by decide⟩

theorem recursiveNested_closed_aux (n : Nat) :
    ∀ (a : ℚ) (d : ℤ), d.toNat = n → recursiveNested a d = a + n + 1 := by
  induction n with
  | zero =>
      intro a d h
      have hd : ¬ 0 < d := by omega
      rw [recursiveNested, if_neg hd]
      push_cast
      ring
  | succ m ih =>
      intro a d h
      have hd : 0 < d := by omega
      rw [recursiveNested, if_pos hd]
      have h' : (d - 1).toNat = m := by omega
      rw [ih (a + 1) (d - 1) h']
      push_cast
      ring

/-- C5: the recursive nested workflow `Rec` — which adds 1 to its input at
each level and, while `depth > 0`, nests itself with the decremented depth,
the base case returning the add — terminates for every depth (the
recursion is on the concrete depth value, as sub-workflows are expanded at
execution time with concrete inputs): its value is the closed form
`a + max(depth, 0) + 1`; in particular `Rec(a=0, depth=3)` yields `4`. -/
theorem C5_recursive_nested :
    (∀ (a : ℚ) (d : ℤ), recursiveNested a d = a + d.toNat + 1) ∧
    recursiveNested 0 3 = 4 := by
  constructor
  · intro a d
    exact recursiveNested_closed_aux d.toNat a d rfl
  · have h3 : (3 : ℤ).toNat = 3 := rfl
    rw [recursiveNested_closed_aux 3 0 3 h3]
    norm_num

/-- C6: cache-key derivation is deterministic: the key is
`H(task_id ‖ canonical(inputs) ‖ env_id)`, so any two resolved input
bindings with the same canonical form (same task and environment) derive
the same key. -/
theorem C6_cache_key_deterministic (taskId envId : String)
    (i i' : List (String × CVal)) (h : canonicalInputs i = canonicalInputs i') :
    keyOf taskId i envId = keyOf taskId i' envId := by
  unfold keyOf
  rw [h]

/-- Witness for C6 at a concrete pair of input bindings: the same fields
given in a different order, with file-typed values at different paths but
identical content, canonicalize identically and derive the same key. -/
theorem C6_cache_key_deterministic_witness :
    keyOf "Add" [("b", .num 2), ("a", .filev "/tmp/x" [1, 2])] "local"
      = keyOf "Add" [("a", .filev "/home/y" [1, 2]), ("b", .num 2)] "local" :=
  C6_cache_key_deterministic "Add" "local"
    [("b", .num 2), ("a", .filev "/tmp/x" [1, 2])]
    [("a", .filev "/home/y" [1, 2]), ("b", .num 2)] rfl

theorem findMismatch_eq_none_iff (task : TaskDef) (binds : List (String × Binding)) :
    findMismatch task binds = none ↔
      ∀ p ∈ binds, assignable p.2.srcTy (dstTy task p.1) ≠ Assign.reject := by
  unfold findMismatch
  rw [List.findSome?_eq_none_iff]
  constructor
  · intro h p hp hr
    have := h p hp
    rw [if_pos hr] at this
    exact Option.noConfusion this
  · intro h p hp
    rw [if_neg (h p hp)]

/-- C2: `builder.add` fails with *type-mismatch* if and only if
`assignable(src_type, dst_type) = reject` for some wired input — before any
execution, since construction runs no task.  Concretely on the notebook's
TypeErrorWorkflow: wiring the ffmpeg node's `Mp4`-typed `out_video` into
the Quicktime-typed HandBrake input fails at construction, while the first
node — whose `Mp4` source feeds an `Any`-typed input and whose `File`
source feeds a `Png`-typed input (a superclass of the destination) —
is accepted; `assignable(Png, File) = ok` and `assignable(Jpeg, Png) =
reject` as the spec states. -/
theorem C2_type_mismatch_iff_reject :
    (∀ (wf : Workflow) (task : TaskDef) (binds : List (String × Binding))
        (nm : Option String),
      addSucceeds wf task binds nm = true ↔
        ∀ p ∈ binds, assignable p.2.srcTy (dstTy task p.1) ≠ Assign.reject) ∧
    assignable .mp4 .quicktime = .reject ∧
    (typeErrorStep2 typeErrorStep1.1).2
      = .error (.typeMismatch "HandBrakeCLI" "in_video" .mp4 .quicktime) ∧
    typeErrorStep1.2 = .ok "add_watermark" ∧
    assignable .anyTy .png = .ok ∧
    assignable .file .png = .ok ∧
    assignable .png .file = .ok ∧
    assignable .jpeg .png = .reject := by
  refine ⟨?_, by decide, rfl, rfl, by decide, by decide, by decide, by decide⟩
  intro wf task binds nm
  rw [← findMismatch_eq_none_iff task binds]
  unfold addSucceeds workflowAdd
  cases h : findMismatch task binds <;> simp [h]

/-- C9: if `builder.add` raises a type mismatch, the workflow under
construction is unchanged — no node appended, no builder state corrupted —
so the notebook's constructor catches the `TypeError` and resumes: the
Quicktime attempt fails and leaves the one-node workflow intact, and the
finished TypeErrorWorkflow holds exactly the ffmpeg node and the corrected
Mp4 HandBrake node. -/
theorem C9_failed_add_leaves_workflow_unchanged :
    (∀ (wf : Workflow) (task : TaskDef) (binds : List (String × Binding))
        (nm : Option String),
      addSucceeds wf task binds nm = false → (workflowAdd wf task binds nm).1 = wf) ∧
    addSucceeds typeErrorStep1.1 quicktimeHandbrake
      [("in_video", lazyBind "add_watermark" "out_video" .mp4),
       ("width", intBind 1280), ("height", intBind 720)] none = false ∧
    (typeErrorStep2 typeErrorStep1.1).1 = typeErrorStep1.1 ∧
    namesOf typeErrorWorkflowConstruct.nodes = ["add_watermark", "HandBrakeCLI"] ∧
    typeErrorWorkflowConstruct.nodes.map (fun n => n.task)
      = [ffmpegTask, mp4Handbrake] := by
  refine ⟨?_, rfl, rfl, rfl, rfl⟩
  intro wf task binds nm
  unfold addSucceeds workflowAdd
  cases h : findMismatch task binds <;> simp [h]

/-- C8: setting workflow outputs by direct assignment
(`wf.outputs.X = lazy`) is equivalent to returning the same lazy fields as
a tuple: the notebook's DirectAccesWorkflow and SetOutputsOfWorkflow —
identical constructions except for how the outputs are set — materialize
the same graph and produce the same workflow outputs for every input. -/
theorem C8_tuple_return_equals_output_assignment :
    ∀ (a b : ℚ),
      directAccesWorkflow a b = setOutputsOfWorkflow a b ∧
      evalWorkflowOutputs (directAccesWorkflow a b)
        = evalWorkflowOutputs (setOutputsOfWorkflow a b) := by
  intro a b
  have h : directAccesWorkflow a b = setOutputsOfWorkflow a b := rfl
  exact ⟨h, by rw [h]⟩

theorem lookupAssoc_setAssoc_self {α : Type} (l : List (String × α)) (f : String) (b : α) :
    lookupAssoc (setAssoc l f b) f = (lookupAssoc l f).map (fun _ => b) := by
  induction l with
  | nil => rfl
  | cons p rest ih =>
      by_cases h : p.1 = f
      · simp [setAssoc, lookupAssoc, h]
      · simp only [setAssoc, if_neg h]
        simp only [lookupAssoc, List.find?_cons] at ih ⊢
        have h' : (decide (p.1 = f)) = false := by simp [h]
        rw [h']
        exact ih

theorem lookupAssoc_setAssoc_ne {α : Type} (l : List (String × α)) (f f' : String) (b : α)
    (h : f' ≠ f) : lookupAssoc (setAssoc l f b) f' = lookupAssoc l f' := by
  induction l with
  | nil => rfl
  | cons p rest ih =>
      by_cases hp : p.1 = f
      · subst hp
        simp [setAssoc, lookupAssoc, List.find?_cons, Ne.symm h]
      · simp only [setAssoc, if_neg hp]
        simp only [lookupAssoc, List.find?_cons] at ih ⊢
        by_cases hf : p.1 = f'
        · simp [hf]
        · have h1 : (decide (p.1 = f')) = false := by simp [hf]
          rw [h1]
          exact ih

theorem find?_nodes_setNodeInput (ns : List WNode) (nm f : String) (b : Binding)
    (nm' : String) :
    (ns.map (fun n => if n.name = nm then { n with inputs := setAssoc n.inputs f b } else n)).find?
        (fun n => n.name = nm')
      = (ns.find? (fun n => n.name = nm')).map
          (fun n => if n.name = nm then { n with inputs := setAssoc n.inputs f b } else n) := by
  rw [List.find?_map]
  have hp : ((fun n : WNode => decide (n.name = nm')) ∘ fun n =>
        if n.name = nm then { n with inputs := setAssoc n.inputs f b } else n)
      = (fun n : WNode => decide (n.name = nm')) := by
    funext n
    by_cases h : n.name = nm <;> simp [h]
  rw [hp]

/-- C10: after `workflow.add` returns, a node input re-assigned through the
workflow handle (`wf[name].inputs.field`) changes exactly that field: the
read-back of any (node, field) pair equals the written binding at the
target and is unchanged everywhere else, while node names, task
definitions and declared outputs are untouched.  Concretely, after the
notebook's `wf["Mul"].inputs.b *= 2` the Mul node's `b` holds the doubled
value, every other input of the graph is as constructed, and the
materialized DirectAccesWorkflow outputs use the updated value:
`out1 = (a+b)*(b*2)` and `out2 = (a+b)/((a+b)*(b*2))`. -/
theorem C10_input_reassignment_frame :
    (∀ (wf : Workflow) (nm f : String) (b : Binding) (nm' f' : String),
      getNodeInput (setNodeInput wf nm f b) nm' f'
        = if nm' = nm ∧ f' = f then (getNodeInput wf nm f).map (fun _ => b)
          else getNodeInput wf nm' f') ∧
    (∀ (wf : Workflow) (nm f : String) (b : Binding),
      (setNodeInput wf nm f b).nodes.map (fun n => (n.name, n.task))
          = wf.nodes.map (fun n => (n.name, n.task)) ∧
      (setNodeInput wf nm f b).outputs = wf.outputs) ∧
    (∀ (a b : ℚ),
      getNodeInput (directAccesBody a b) "Mul" "b" = some (numBind (b * 2)) ∧
      getNodeInput (directAccesBody a b) "Mul" "a" = some (lazyBind "addition" "out" .anyTy) ∧
      getNodeInput (directAccesBody a b) "addition" "a" = some (numBind a) ∧
      getNodeInput (directAccesBody a b) "addition" "b" = some (numBind b) ∧
      getNodeInput (directAccesBody a b) "division" "x" = some (lazyBind "addition" "out" .anyTy) ∧
      getNodeInput (directAccesBody a b) "division" "y" = some (lazyBind "Mul" "out" .anyTy) ∧
      evalWorkflowOutputs (directAccesWorkflow a b)
        = [("out1", (a + b) * (b * 2)), ("out2", (a + b) / ((a + b) * (b * 2)))]) := by
  refine ⟨?_, ?_, ?_⟩
  · intro wf nm f b nm' f'
    unfold getNodeInput setNodeInput
    simp only []
    rw [find?_nodes_setNodeInput]
    by_cases hn : nm' = nm
    · subst hn
      cases h : wf.nodes.find? (fun n => n.name = nm') with
      | none => simp [h]
      | some n0 =>
          have hname : n0.name = nm' := by
            have := List.find?_some h
            simpa using this
          by_cases hf : f' = f
          · subst hf
            simp [h, hname, lookupAssoc_setAssoc_self]
          · simp [h, hname, hf, lookupAssoc_setAssoc_ne n0.inputs f f' b hf]
    · cases h : wf.nodes.find? (fun n => n.name = nm') with
      | none => simp [h, hn]
      | some n0 =>
          have hname : n0.name = nm' := by
            have := List.find?_some h
            simpa using this
          have hnm : ¬ n0.name = nm := by rw [hname]; exact hn
          simp [h, hn, hnm]
  · intro wf nm f b
    constructor
    · unfold setNodeInput
      simp only [List.map_map]
      apply List.map_congr_left
      intro n _
      by_cases h : n.name = nm <;> simp [h]
    · rfl
  · intro a b
    refine ⟨rfl, rfl, rfl, rfl, rfl, rfl, rfl⟩

theorem lookupCache_append_left (c d : Cache) (k : Nat) (h : (lookupCache c k).isSome) :
    lookupCache (c ++ d) k = lookupCache c k := by
  induction c with
  | nil => simp [lookupCache] at h
  | cons p rest ih =>
      by_cases hp : p.1 = k
      · simp [lookupCache, List.find?_cons, hp]
      · have h1 : (decide (p.1 = k)) = false := by simp [hp]
        simp only [lookupCache, List.cons_append, List.find?_cons, h1] at h ⊢
        exact ih h

theorem lookupCache_append_new (c : Cache) (k : Nat) (outs : List (String × ℚ))
    (h : lookupCache c k = none) : lookupCache (c ++ [(k, outs)]) k = some outs := by
  induction c with
  | nil => simp [lookupCache]
  | cons p rest ih =>
      by_cases hp : p.1 = k
      · simp [lookupCache, List.find?_cons, hp] at h
      · have h1 : (decide (p.1 = k)) = false := by simp [hp]
        simp only [lookupCache, List.cons_append, List.find?_cons, h1] at h ⊢
        exact ih h

theorem runNodes_cache_mono : ∀ (nodes : List WNode) (env : Env) (c : Cache),
    ∃ d, (runNodes nodes env c).cache = c ++ d := by
  intro nodes
  induction nodes with
  | nil => intro env c; exact ⟨[], by simp [runNodes]⟩
  | cons n rest ih =>
      intro env c
      simp only [runNodes]
      cases h : lookupCache c (nodeKey n (resolveInputs env n)) with
      | some outs =>
          obtain ⟨d, hd⟩ := ih (env ++ outs.map (fun p => ((n.name, p.1), p.2))) c
          exact ⟨d, hd⟩
      | none =>
          obtain ⟨d, hd⟩ := ih
            (env ++ (execTask n.task.id (resolveInputs env n)).map (fun p => ((n.name, p.1), p.2)))
            (c ++ [(nodeKey n (resolveInputs env n), execTask n.task.id (resolveInputs env n))])
          exact ⟨[(nodeKey n (resolveInputs env n), execTask n.task.id (resolveInputs env n))] ++ d,
            by rw [hd, List.append_assoc]⟩

/-- The key fact behind warm-cache re-execution: re-running the same node
list from the same value store against the cache the first run produced
reproduces the first run's value store and cache exactly, with every node
a cache hit and zero worker invocations. -/
theorem runNodes_warm : ∀ (nodes : List WNode) (env : Env) (c : Cache),
    runNodes nodes env (runNodes nodes env c).cache =
      { env := (runNodes nodes env c).env, cache := (runNodes nodes env c).cache,
        hits := nodes.length, invocations := 0 } := by
  intro nodes
  induction nodes with
  | nil => intro env c; rfl
  | cons n rest ih =>
      intro env c
      cases h : lookupCache c (nodeKey n (resolveInputs env n)) with
      | some outs =>
          have henv := h
          simp only [runNodes, h]
          obtain ⟨d, hd⟩ := runNodes_cache_mono rest (env ++ outs.map (fun p => ((n.name, p.1), p.2))) c
          have hpres : lookupCache (runNodes rest (env ++ outs.map (fun p => ((n.name, p.1), p.2))) c).cache
              (nodeKey n (resolveInputs env n)) = some outs := by
            rw [hd, lookupCache_append_left _ _ _ (by rw [h]; rfl), h]
          simp only [hpres, ih, List.length_cons]
      | none =>
          simp only [runNodes, h]
          have hpres : lookupCache
              (runNodes rest
                (env ++ (execTask n.task.id (resolveInputs env n)).map (fun p => ((n.name, p.1), p.2)))
                (c ++ [(nodeKey n (resolveInputs env n), execTask n.task.id (resolveInputs env n))])).cache
              (nodeKey n (resolveInputs env n))
              = some (execTask n.task.id (resolveInputs env n)) := by
            obtain ⟨d, hd⟩ := runNodes_cache_mono rest
              (env ++ (execTask n.task.id (resolveInputs env n)).map (fun p => ((n.name, p.1), p.2)))
              (c ++ [(nodeKey n (resolveInputs env n), execTask n.task.id (resolveInputs env n))])
            rw [hd]
            have hnew := lookupCache_append_new c (nodeKey n (resolveInputs env n))
              (execTask n.task.id (resolveInputs env n)) h
            rw [lookupCache_append_left _ d _ (by rw [hnew]; rfl)]
            exact hnew
          simp only [hpres, ih, List.length_cons]

/-- C7: re-running a workflow with identical inputs on a warm cache
reproduces the first run's outputs exactly, with one cache hit per node
and zero worker invocations — for every graph, value store and starting
cache.  For the notebook's linear chain `Add(a=2,b=3) → Mul(a=add.out,
b=3)` the workflow yields `mul.out = 15`, and the warm re-run observes
cache-hit count 2 and 0 worker invocations while returning the same value
store. -/
theorem C7_warm_cache_rerun :
    (∀ (nodes : List WNode) (env : Env) (c : Cache),
      runNodes nodes env (runNodes nodes env c).cache =
        { env := (runNodes nodes env c).env, cache := (runNodes nodes env c).cache,
          hits := nodes.length, invocations := 0 }) ∧
    evalWorkflowOutputs (basicWorkflowModel 2 3) = [("out", 15)] ∧
    runNodes (basicWorkflowModel 2 3).nodes []
        (runNodes (basicWorkflowModel 2 3).nodes [] []).cache =
      { env := (runNodes (basicWorkflowModel 2 3).nodes [] []).env,
        cache := (runNodes (basicWorkflowModel 2 3).nodes [] []).cache,
        hits := 2, invocations := 0 } := by
  refine ⟨runNodes_warm, ?_, ?_⟩
  · have h : evalWorkflowOutputs (basicWorkflowModel 2 3) = [("out", (2 + 3) * 3)] := rfl
    rw [h]
    norm_num
  · have h := runNodes_warm (basicWorkflowModel 2 3).nodes [] []
    have hlen : (basicWorkflowModel 2 3).nodes.length = 2 := rfl
    rw [hlen] at h
    exact h

theorem lookupAssoc_append_left {α : Type} (l m : List (String × α)) (k : String)
    (h : (lookupAssoc l k).isSome) : lookupAssoc (l ++ m) k = lookupAssoc l k := by
  induction l with
  | nil => simp [lookupAssoc] at h
  | cons p rest ih =>
      by_cases hp : p.1 = k
      · simp [lookupAssoc, List.find?_cons, hp]
      · have h1 : (decide (p.1 = k)) = false := by simp [hp]
        simp only [lookupAssoc, List.cons_append, List.find?_cons, h1] at h ⊢
        exact ih h

theorem lookupAssoc_append_new {α : Type} (l : List (String × α)) (k : String) (v : α)
    (h : lookupAssoc l k = none) : lookupAssoc (l ++ [(k, v)]) k = some v := by
  induction l with
  | nil => simp [lookupAssoc]
  | cons p rest ih =>
      by_cases hp : p.1 = k
      · simp [lookupAssoc, List.find?_cons, hp] at h
      · have h1 : (decide (p.1 = k)) = false := by simp [hp]
        simp only [lookupAssoc, List.cons_append, List.find?_cons, h1] at h ⊢
        exact ih h

theorem lookupAssoc_isSome_of_mem {α : Type} (l : List (String × α)) (k : String)
    (h : k ∈ l.map (fun p => p.1)) : (lookupAssoc l k).isSome := by
  induction l with
  | nil => simp at h
  | cons p rest ih =>
      by_cases hp : p.1 = k
      · simp [lookupAssoc, List.find?_cons, hp]
      · have h1 : (decide (p.1 = k)) = false := by simp [hp]
        simp only [lookupAssoc, List.find?_cons, h1]
        simp only [List.map_cons, List.mem_cons] at h
        rcases h with h | h
        · exact absurd h.symm hp
        · exact ih h

theorem lookupAssoc_eq_none_of_not_mem {α : Type} (l : List (String × α)) (k : String)
    (h : k ∉ l.map (fun p => p.1)) : lookupAssoc l k = none := by
  induction l with
  | nil => rfl
  | cons p rest ih =>
      simp only [List.map_cons, List.mem_cons, not_or] at h
      have h1 : (decide (p.1 = k)) = false := by
        simp only [decide_eq_false_iff_not]
        intro hc
        exact h.1 (hc ▸ rfl)
      simp only [lookupAssoc, List.find?_cons, h1]
      exact ih h.2

theorem computeShapesAux_mono : ∀ (ns : List SNode) (acc : List (String × Shape)),
    ∃ d, computeShapesAux acc ns = acc ++ d := by
  intro ns
  induction ns with
  | nil => intro acc; exact ⟨[], by simp [computeShapesAux]⟩
  | cons m rest ih =>
      intro acc
      simp only [computeShapesAux]
      obtain ⟨d, hd⟩ := ih
        (acc ++ [(m.name, shapeFormula (m.deps.map (fun d => (lookupAssoc acc d).getD [])) m)])
      exact ⟨[(m.name, shapeFormula (m.deps.map (fun d => (lookupAssoc acc d).getD [])) m)] ++ d,
        by rw [hd, List.append_assoc]⟩

theorem computeShapesAux_spec : ∀ (ns : List SNode) (acc : List (String × Shape)),
    wellFormedFrom (acc.map (fun p => p.1)) ns →
    ∀ n ∈ ns, lookupAssoc (computeShapesAux acc ns) n.name
      = some (shapeFormula
          (n.deps.map (fun d => (lookupAssoc (computeShapesAux acc ns) d).getD [])) n) := by
  intro ns
  induction ns with
  | nil => intro acc _ n hn; simp at hn
  | cons m rest ih =>
      intro acc hwf n hn
      obtain ⟨hnm, hdeps, hwf'⟩ := hwf
      simp only [computeShapesAux]
      have hacc' : (acc ++ [(m.name, shapeFormula
          (m.deps.map (fun d => (lookupAssoc acc d).getD [])) m)]).map (fun p => p.1)
          = acc.map (fun p => p.1) ++ [m.name] := by
        simp
      rcases List.mem_cons.mp hn with heq | hmem
      · subst heq
        obtain ⟨d2, hd2⟩ := computeShapesAux_mono rest
          (acc ++ [(n.name, shapeFormula (n.deps.map (fun d => (lookupAssoc acc d).getD [])) n)])
        have hnone : lookupAssoc acc n.name = none := lookupAssoc_eq_none_of_not_mem acc n.name hnm
        have hmid : lookupAssoc
            (acc ++ [(n.name, shapeFormula (n.deps.map (fun d => (lookupAssoc acc d).getD [])) n)])
            n.name = some (shapeFormula (n.deps.map (fun d => (lookupAssoc acc d).getD [])) n) :=
          lookupAssoc_append_new acc n.name _ hnone
        have hfin : lookupAssoc (computeShapesAux
            (acc ++ [(n.name, shapeFormula (n.deps.map (fun d => (lookupAssoc acc d).getD [])) n)])
            rest) n.name
            = some (shapeFormula (n.deps.map (fun d => (lookupAssoc acc d).getD [])) n) := by
          rw [hd2, lookupAssoc_append_left _ d2 _ (by rw [hmid]; rfl)]
          exact hmid
        rw [hfin]
        congr 1
        apply congrArg (fun l => shapeFormula l n)
        apply List.map_congr_left
        intro d hd
        have hdin : d ∈ acc.map (fun p => p.1) := hdeps d hd
        have hsome : (lookupAssoc acc d).isSome := lookupAssoc_isSome_of_mem acc d hdin
        have h1 : lookupAssoc
            (acc ++ [(n.name, shapeFormula (n.deps.map (fun e => (lookupAssoc acc e).getD [])) n)])
            d = lookupAssoc acc d := lookupAssoc_append_left acc _ d hsome
        rw [hd2, lookupAssoc_append_left _ d2 _ (by rw [h1]; exact hsome), h1]
      · have := ih
          (acc ++ [(m.name, shapeFormula (m.deps.map (fun d => (lookupAssoc acc d).getD [])) m)])
          (by rw [hacc']; exact hwf') n hmem
        exact this

/-- C4: for every node of a valid graph, the node's state shape equals the
union of its producers' shapes, plus its local split axes, minus its local
combine axes (the spec's propagation rule); concretely, on the notebook's
SplitThenCombineWorkflow the downstream `Add` node closes the upstream
axis by naming its id `"Mul.a"`: `Mul`'s shape is `[(Mul.a, |a|),
(Mul.b, |b|)]` while `Add` and `Sum` keep only the open `Mul.b` axis. -/
theorem C4_shape_propagation_rule :
    (∀ (nodes : List SNode), wellFormed nodes → ∀ n ∈ nodes,
      shapeOf nodes n.name
        = shapeFormula (n.deps.map (fun d => shapeOf nodes d)) n) ∧
    (∀ (la lb : Nat),
      wellFormed (splitThenCombineNodes la lb) ∧
      shapeOf (splitThenCombineNodes la lb) "Mul" = [("Mul.a", la), ("Mul.b", lb)] ∧
      shapeOf (splitThenCombineNodes la lb) "Add" = [("Mul.b", lb)] ∧
      shapeOf (splitThenCombineNodes la lb) "Sum" = [("Mul.b", lb)]) := by
  constructor
  · intro nodes hwf n hn
    have h := computeShapesAux_spec nodes [] hwf n hn
    unfold shapeOf computeShapes
    rw [h]
    rfl
  · intro la lb
    refine ⟨?_, rfl, rfl, rfl⟩
    simp [wellFormed, wellFormedFrom, splitThenCombineNodes]

theorem lookupKey_cons (p : Nat × KeyState) (rest : CacheSt) (k : Nat) :
    lookupKey (p :: rest) k = if p.1 = k then p.2 else lookupKey rest k := by
  by_cases h : p.1 = k
  · simp [lookupKey, List.find?_cons, h]
  · have h1 : (decide (p.1 = k)) = false := by simp [h]
    simp only [lookupKey, List.find?_cons, h1, if_neg h]

theorem lookupKey_setKey (s : CacheSt) (k k' : Nat) (st : KeyState) :
    lookupKey (setKey s k st) k' = if k' = k then st else lookupKey s k' := by
  induction s with
  | nil =>
      by_cases h : k' = k
      · simp [setKey, lookupKey, List.find?_cons, h]
      · have h2 : ¬ k = k' := fun hc => h hc.symm
        simp [setKey, lookupKey, List.find?_cons, h, h2]
  | cons p rest ih =>
      by_cases hp : p.1 = k
      · by_cases h : k' = k
        · simp [setKey, hp, lookupKey_cons, h]
        · have h2 : ¬ k = k' := fun hc => h hc.symm
          have hp' : ¬ p.1 = k' := by rw [hp]; exact h2
          simp [setKey, hp, lookupKey_cons, h, h2, hp']
      · by_cases h : k' = k
        · have hp' : ¬ p.1 = k' := by rw [h]; exact hp
          rw [h] at ih
          simp [setKey, hp, lookupKey_cons, h, hp', ih]
        · simp [setKey, hp, lookupKey_cons, h, ih]

theorem countExec_cons_claim (w k1 : Nat) (tr : List CacheEvent) (k : Nat) :
    countExec (.claim w k1 :: tr) k = countExec tr k := by
  unfold countExec
  rw [List.countP_cons]
  simp

theorem countExec_cons_observe (w k1 : Nat) (o : ℤ) (tr : List CacheEvent) (k : Nat) :
    countExec (.observe w k1 o :: tr) k = countExec tr k := by
  unfold countExec
  rw [List.countP_cons]
  simp

theorem countExec_cons_publish (w k1 : Nat) (tr : List CacheEvent) (k : Nat) :
    countExec (.publish w k1 :: tr) k = countExec tr k + (if k1 = k then 1 else 0) := by
  unfold countExec
  rw [List.countP_cons]
  by_cases h : k1 = k <;> simp [h]

theorem cacheStep_claim_inv {execOut : Nat → ℤ} {s s1 : CacheSt} {w k : Nat}
    (h : cacheStep execOut s (.claim w k) = some s1) :
    lookupKey s k = .unclaimed ∧ s1 = setKey s k (.claimed w) := by
  cases hk : lookupKey s k <;> simp [cacheStep, hk] at h
  simp [h]

theorem cacheStep_publish_inv {execOut : Nat → ℤ} {s s1 : CacheSt} {w k : Nat}
    (h : cacheStep execOut s (.publish w k) = some s1) :
    lookupKey s k = .claimed w ∧ s1 = setKey s k (.published (execOut k)) := by
  cases hk : lookupKey s k with
  | unclaimed => simp [cacheStep, hk] at h
  | claimed w' =>
      simp only [cacheStep] at h
      rw [hk] at h
      by_cases hw : w' = w
      · subst hw
        simp at h
        exact ⟨rfl, h.symm⟩
      · simp [hw] at h
  | published o' => simp [cacheStep, hk] at h

theorem cacheStep_observe_inv {execOut : Nat → ℤ} {s s1 : CacheSt} {w k : Nat} {o : ℤ}
    (h : cacheStep execOut s (.observe w k o) = some s1) :
    lookupKey s k = .published o ∧ s1 = s := by
  cases hk : lookupKey s k with
  | unclaimed => simp [cacheStep, hk] at h
  | claimed w' => simp [cacheStep, hk] at h
  | published o' =>
      simp only [cacheStep] at h
      rw [hk] at h
      by_cases ho : o' = o
      · subst ho
        simp at h
        exact ⟨rfl, h.symm⟩
      · simp [ho] at h

theorem runCacheTrace_cons_inv {execOut : Nat → ℤ} {s s' : CacheSt} {e : CacheEvent}
    {tr : List CacheEvent} (h : runCacheTrace execOut s (e :: tr) = some s') :
    ∃ s1, cacheStep execOut s e = some s1 ∧ runCacheTrace execOut s1 tr = some s' := by
  rw [runCacheTrace] at h
  cases hstep : cacheStep execOut s e with
  | none => rw [hstep] at h; exact absurd h (by simp)
  | some s1 => rw [hstep] at h; exact ⟨s1, rfl, h⟩

/-- A key observed published stays published with the same outputs and is
executed no further time along any valid continuation of the trace: the
spec has no transition out of a published entry. -/
theorem published_persists (execOut : Nat → ℤ) :
    ∀ (tr : List CacheEvent) (s s' : CacheSt) (k : Nat) (o : ℤ),
      runCacheTrace execOut s tr = some s' → lookupKey s k = .published o →
      lookupKey s' k = .published o ∧ countExec tr k = 0 := by
  intro tr
  induction tr with
  | nil =>
      intro s s' k o hrun hpub
      cases hrun
      exact ⟨hpub, rfl⟩
  | cons e rest ih =>
      intro s s' k o hrun hpub
      obtain ⟨s1, hstep, hrest⟩ := runCacheTrace_cons_inv hrun
      cases e with
      | claim w k1 =>
          obtain ⟨hk1, hs1⟩ := cacheStep_claim_inv hstep
          have hne : k ≠ k1 := by
            intro hc
            rw [hc, hk1] at hpub
            exact KeyState.noConfusion hpub
          have hkeep : lookupKey s1 k = .published o := by
            rw [hs1, lookupKey_setKey, if_neg hne]
            exact hpub
          obtain ⟨h1, h2⟩ := ih s1 s' k o hrest hkeep
          exact ⟨h1, by rw [countExec_cons_claim, h2]⟩
      | publish w k1 =>
          obtain ⟨hk1, hs1⟩ := cacheStep_publish_inv hstep
          have hne : k ≠ k1 := by
            intro hc
            rw [hc, hk1] at hpub
            exact KeyState.noConfusion hpub
          have hkeep : lookupKey s1 k = .published o := by
            rw [hs1, lookupKey_setKey, if_neg hne]
            exact hpub
          obtain ⟨h1, h2⟩ := ih s1 s' k o hrest hkeep
          refine ⟨h1, ?_⟩
          rw [countExec_cons_publish, h2, if_neg (fun hc : k1 = k => hne hc.symm)]
      | observe w k1 o1 =>
          obtain ⟨hk1, hs1⟩ := cacheStep_observe_inv hstep
          obtain ⟨h1, h2⟩ := ih s1 s' k o hrest (hs1 ▸ hpub)
          exact ⟨h1, by rw [countExec_cons_observe, h2]⟩

theorem countExec_le_one (execOut : Nat → ℤ) :
    ∀ (tr : List CacheEvent) (s s' : CacheSt) (k : Nat),
      runCacheTrace execOut s tr = some s' → countExec tr k ≤ 1 := by
  intro tr
  induction tr with
  | nil => intro s s' k _; exact Nat.le_succ 0
  | cons e rest ih =>
      intro s s' k hrun
      obtain ⟨s1, hstep, hrest⟩ := runCacheTrace_cons_inv hrun
      cases e with
      | claim w k1 =>
          rw [countExec_cons_claim]
          exact ih s1 s' k hrest
      | publish w k1 =>
          obtain ⟨hk1, hs1⟩ := cacheStep_publish_inv hstep
          rw [countExec_cons_publish]
          by_cases hkk : k1 = k
          · subst hkk
            have hpub : lookupKey s1 k1 = .published (execOut k1) := by
              rw [hs1, lookupKey_setKey, if_pos rfl]
            obtain ⟨_, hzero⟩ := published_persists execOut rest s1 s' k1
              (execOut k1) hrest hpub
            rw [hzero, if_pos rfl]
          · rw [if_neg hkk]
            simpa using ih s1 s' k hrest
      | observe w k1 o1 =>
          rw [countExec_cons_observe]
          exact ih s1 s' k hrest

/-- Published entries always hold the deterministic execution result for
their key, and every observation in a valid trace returns it: all
claimants of a key observe the outputs of the one execution. -/
theorem observe_sound (execOut : Nat → ℤ) :
    ∀ (tr : List CacheEvent) (s s' : CacheSt),
      runCacheTrace execOut s tr = some s' →
      (∀ (k : Nat) (o : ℤ), lookupKey s k = .published o → o = execOut k) →
      ∀ (w k : Nat) (o : ℤ), CacheEvent.observe w k o ∈ tr → o = execOut k := by
  intro tr
  induction tr with
  | nil => intro s s' _ _ w k o hmem; simp at hmem
  | cons e rest ih =>
      intro s s' hrun hinv w k o hmem
      obtain ⟨s1, hstep, hrest⟩ := runCacheTrace_cons_inv hrun
      have hinv1 : ∀ (k2 : Nat) (o2 : ℤ), lookupKey s1 k2 = .published o2 → o2 = execOut k2 := by
        cases e with
        | claim w1 k1 =>
            obtain ⟨hk1, hs1⟩ := cacheStep_claim_inv hstep
            intro k2 o2 h2
            rw [hs1, lookupKey_setKey] at h2
            by_cases hc : k2 = k1
            · rw [if_pos hc] at h2
              exact KeyState.noConfusion h2
            · rw [if_neg hc] at h2
              exact hinv k2 o2 h2
        | publish w1 k1 =>
            obtain ⟨hk1, hs1⟩ := cacheStep_publish_inv hstep
            intro k2 o2 h2
            rw [hs1, lookupKey_setKey] at h2
            by_cases hc : k2 = k1
            · rw [if_pos hc] at h2
              cases h2
              rw [hc]
            · rw [if_neg hc] at h2
              exact hinv k2 o2 h2
        | observe w1 k1 o1 =>
            obtain ⟨hk1, hs1⟩ := cacheStep_observe_inv hstep
            rw [hs1]
            exact hinv
      rcases List.mem_cons.mp hmem with heq | hmem'
      · subst heq
        obtain ⟨hk1, _⟩ := cacheStep_observe_inv hstep
        exact hinv k o hk1
      · exact ih s1 s' hrest hinv1 w k o hmem'

/-- C3: under the cache's claim discipline — atomic exclusive claim,
publish by the claim holder, observation of published outputs — every
valid interleaved trace of any number of workers starting from the empty
shared cache executes each cache key at most once, and every claimant that
observes a key's outputs sees exactly the outputs of that one execution. -/
theorem C3_at_most_once_execution (execOut : Nat → ℤ) (tr : List CacheEvent)
    (s' : CacheSt) (hrun : runCacheTrace execOut [] tr = some s') :
    (∀ k, countExec tr k ≤ 1) ∧
    (∀ (w k : Nat) (o : ℤ), CacheEvent.observe w k o ∈ tr → o = execOut k) := by
  constructor
  · intro k
    exact countExec_le_one execOut tr [] s' k hrun
  · exact observe_sound execOut tr [] s' hrun
      (by intro k o h; simp [lookupKey] at h)

/-- Two workers racing on key 5: worker 0 claims and publishes; workers 1
and 2 await the in-flight entry and observe the published outputs. -/
def demoTrace : List CacheEvent :=
  [.claim 0 5, .publish 0 5, .observe 1 5 6, .observe 2 5 6]

def demoExecOut : Nat → ℤ := fun k => (k : ℤ) + 1

/-- Witness for C3 on the concrete two-worker race: the trace is valid, no
key is executed twice, and both waiting workers observe the single
execution's outputs. -/
theorem C3_at_most_once_execution_witness :
    (∀ k, countExec demoTrace k ≤ 1) ∧
    (∀ (w k : Nat) (o : ℤ), CacheEvent.observe w k o ∈ demoTrace → o = demoExecOut k) :=
  C3_at_most_once_execution demoExecOut demoTrace [(5, .published 6)] (by decide)

end Pydra
